import Mathlib

/-!
Verification development for the enhanced paper-decoder pipeline
(`paper_decoder_enhanced.py`).  Python strings are modelled as lists of
characters; the remote reasoning service, the PDF extractor and `json.loads`
are external collaborators and enter the model as explicit parameters, with
`Except` representing raised exceptions.
-/

set_option maxRecDepth 8000

namespace PaperDecoder

/-- A Python string, modelled as its list of characters. -/
abbrev Str : Type := List Char

/-- Character-list view of a Lean string literal. -/
def sc (s : String) : Str := s.data

/-- The whitespace test used by Python's `str.split()` / `str.strip()`. -/
def isSpace (c : Char) : Bool := c.isWhitespace

/-- Worker for `pySplit`: `cur` is the reversed word currently being read. -/
def pySplitAux : Str → Str → List Str
  | cur, [] => if cur = [] then [] else [cur.reverse]
  | cur, c :: rest =>
    if isSpace c then
      if cur = [] then pySplitAux [] rest else cur.reverse :: pySplitAux [] rest
    else pySplitAux (c :: cur) rest

/-- Python `text.split()`: split on runs of whitespace, dropping empty
pieces. -/
def pySplit (s : Str) : List Str := pySplitAux [] s

/-- Python `' '.join(words)`. -/
def joinSp : List Str → Str
  | [] => []
  | [w] => w
  | w :: x :: xs => w ++ ' ' :: joinSp (x :: xs)

/-- The accumulation loop of `chunk_text`: the word is appended first and the
group is flushed only after its rendering already exceeds `m`
(`if len(' '.join(chunk)) > max_length`). -/
def chunkGroups (m : Nat) : List Str → List Str → List (List Str)
  | chunk, [] => if chunk = [] then [] else [chunk]
  | chunk, w :: ws =>
    let chunk' := chunk ++ [w]
    if m < (joinSp chunk').length then chunk' :: chunkGroups m [] ws
    else chunkGroups m chunk' ws

/-- `chunk_text(text, max_length)`: split into words, grow groups, render each
group with single spaces. -/
def chunk_text (text : Str) (m : Nat) : List Str :=
  (chunkGroups m [] (pySplit text)).map joinSp

/-- Strip characters satisfying `p` from both ends of a list
(Python `str.strip` family). -/
def stripWhile (p : Char → Bool) (l : Str) : Str :=
  ((l.dropWhile p).reverse.dropWhile p).reverse

/-- Python `s.strip()` (no argument): strip whitespace at both ends. -/
def pyStrip (l : Str) : Str := stripWhile isSpace l

/-- Python `s.strip('-*•')` as used by the fallback term parser. -/
def stripBullets (l : Str) : Str :=
  stripWhile (fun c => c = '-' || c = '*' || c = '•') l

/-- Python `response.split('\n')`: split at every newline, keeping empty
pieces. -/
def splitNl : Str → List Str
  | [] => [[]]
  | c :: rest =>
    if c = '\n' then [] :: splitNl rest
    else
      match splitNl rest with
      | [] => [[c]]
      | p :: ps => (c :: p) :: ps

/-- Boolean list-prefix test. -/
def isPrefixB : Str → Str → Bool
  | [], _ => true
  | _ :: _, [] => false
  | a :: as, b :: bs => a = b && isPrefixB as bs

/-- Boolean contiguous-substring test, Python's `a in b` on strings. -/
def isSubB (a : Str) : Str → Bool
  | [] => a.isEmpty
  | c :: bs => isPrefixB a (c :: bs) || isSubB a bs

/-- Python `s.lower()` (ASCII-adequate model). -/
def lowerL (s : Str) : Str := s.map Char.toLower

/-- The duplicate test of the deduplication loop:
`term.lower() in existing.lower() or existing.lower() in term.lower()`. -/
def related (t e : Str) : Bool :=
  isSubB (lowerL t) (lowerL e) || isSubB (lowerL e) (lowerL t)

/-- Python `s.replace(pat, '')`: delete each left-to-right, non-overlapping
occurrence of `pat`. -/
def removePat (pat : Str) (l : Str) : Str :=
  match pat, l with
  | [], l => l
  | _ :: _, [] => []
  | p :: ps, c :: rest =>
    if isPrefixB (p :: ps) (c :: rest) then
      removePat (p :: ps) ((c :: rest).drop (p :: ps).length)
    else c :: removePat (p :: ps) rest
termination_by l.length
decreasing_by
  · simp [List.length_drop]
    omega
  · simp

/-- Python `list.remove(e)`: delete the first occurrence of `e` (here `e` is
always present, so the no-occurrence case never arises in the pipeline). -/
def removeFirst (l : List Str) (e : Str) : List Str :=
  match l with
  | [] => []
  | x :: xs => if x = e then xs else x :: removeFirst xs e

/-- The inner `for existing_term in deduplicated_terms` scan: the first
retained term related to `t`, if any (the loop `break`s there). -/
def findRelated (t : Str) : List Str → Option Str
  | [] => none
  | e :: rest => if related t e then some e else findRelated t rest

/-- One step of the deduplication loop: append when unrelated to every
retained term; otherwise keep the longer of `t` and the first related term,
a longer `t` being `remove`d-and-`append`ed (so it moves to the end). -/
def dedupInsert (retained : List Str) (t : Str) : List Str :=
  match findRelated t retained with
  | none => retained ++ [t]
  | some e => if e.length < t.length then removeFirst retained e ++ [t] else retained

/-- The outer `for term in cleaned_terms` loop. -/
def dedupLoop : List Str → List Str → List Str
  | retained, [] => retained
  | retained, t :: ts => dedupLoop (dedupInsert retained t) ts

/-- The Deduplicator of `identify_technical_terms`: process the cleaned terms
in order, then cap at 8 (`deduplicated_terms[:8]`). -/
def dedupTerms (cleaned : List Str) : List Str :=
  (dedupLoop [] cleaned).take 8

/-- A value inside a decoded JSON array: a Python string or anything else
(non-strings never pass `isinstance(term, str)`). -/
inductive PyVal where
  | pstr (s : Str)
  | other
deriving DecidableEq

/-- What `json.loads` can hand back: a Python list or some non-list value. -/
inductive PyJson where
  | jlist (items : List PyVal)
  | jother
deriving DecidableEq

/-- The per-term cleaning pass: keep truthy strings, delete fence artifacts,
strip, keep only terms of length `> 2` not starting with a fence. -/
def cleanTerms (terms : List PyVal) : List Str :=
  terms.filterMap fun v =>
    match v with
    | .pstr s =>
      if s ≠ [] then
        let ct := pyStrip (removePat (sc "```") (removePat (sc "```json") s))
        if ct ≠ [] ∧ 2 < ct.length ∧ isPrefixB (sc "```") ct = false then some ct
        else none
      else none
    | .other => none

/-- `response_str.startswith('[') and response_str.endswith(']')`. -/
def bracketDelim (rs : Str) : Bool :=
  (rs.head? = some '[' : Bool) && (rs.getLast? = some ']' : Bool)

/-- The line-based fallback parser: split on newlines, keep stripped lines of
length `> 2`, trim bullet markers, cap at 8. -/
def fallbackTerms (response : Str) : List Str :=
  let lines := splitNl response
  ((lines.filter fun line => pyStrip line ≠ [] ∧ 2 < (pyStrip line).length).map
    fun line => pyStrip (stripBullets (pyStrip line))).take 8

/-- The parsing phase of `identify_technical_terms`, applied to the response
text.  `jl` stands for the external `json.loads`: `none` models a raised
`ValueError`, `.jother` a decoded non-list.  A bracket-delimited response that
decodes to a list is cleaned, deduplicated and capped; every other outcome
falls through to the line-based fallback (the `except` absorbs the raise). -/
def identifyFromResponseText (jl : Str → Option PyJson) (response : Str) :
    List Str :=
  let rs := pyStrip response
  match (if bracketDelim rs then jl rs else none) with
  | some (.jlist vals) => dedupTerms (cleanTerms vals)
  | _ => fallbackTerms response

/-- A content item of a response: `text` is `none` when the attribute is
missing, `some []` when it is an empty (falsy) string. -/
structure ContentItem where
  text : Option Str
deriving DecidableEq

/-- An output item of a response; `content` is `none` when absent. -/
structure OutputItem where
  content : Option (List ContentItem)
deriving DecidableEq

/-- A response object from the external service: either a well-shaped output
list (`none` for a missing/falsy `output` attribute), or a loosely-typed
object whose traversal raises `e` (this is what the `except` branch of
`call_openai_with_tools` catches). -/
inductive RespOutput where
  | items (output : Option (List OutputItem))
  | raising (e : Str)
deriving DecidableEq

/-- The inner `for content_item in output_item.content` scan. -/
def scanContent : List ContentItem → Option Str
  | [] => none
  | ci :: rest =>
    match ci.text with
    | some t => if t ≠ [] then some t else scanContent rest
    | none => scanContent rest

/-- The outer `for output_item in response.output` scan. -/
def scanItems : List OutputItem → Option Str
  | [] => none
  | oi :: rest =>
    match oi.content with
    | some cl =>
      if cl ≠ [] then
        match scanContent cl with
        | some t => some t
        | none => scanItems rest
      else scanItems rest
    | none => scanItems rest

/-- `call_openai_with_tools`, given the outcome of the remote
`client.responses.create` call.  The call itself sits OUTSIDE the
`try`, so its exception propagates (`.error`); only a raise during the
traversal of the response is turned into the `"Response error: ..."` string. -/
def callOpenai : Except Str RespOutput → Except Str Str
  | .error e => .error e
  | .ok (.raising e) => .ok (sc "Response error: " ++ e)
  | .ok (.items none) => .ok (sc "[No output from model]")
  | .ok (.items (some l)) =>
    .ok (match scanItems l with
      | some t => t
      | none => sc "[No output from model]")

/-- Python dict assignment `d[k] = v` on an insertion-ordered dict: update in
place when the key exists, else append. -/
def dictInsert (acc : List (Str × Str)) (k v : Str) : List (Str × Str) :=
  match acc with
  | [] => [(k, v)]
  | (k', v') :: rest =>
    if k' = k then (k', v) :: rest else (k', v') :: dictInsert rest k v

/-- The `for term in technical_terms[:5]` explanation loop; `er` gives the
remote call outcome for each term, and a raised call aborts the loop. -/
def explainLoop (er : Str → Except Str RespOutput) :
    List Str → List (Str × Str) → Except Str (List (Str × Str))
  | [], acc => .ok acc
  | t :: ts, acc =>
    match callOpenai (er t) with
    | .error e => .error e
    | .ok expl => explainLoop er ts (dictInsert acc t expl)

/-- The `chunk_processed` field:
`chunk[:200] + "..." if len(chunk) > 200 else chunk`. -/
def chunkProcessed (chunk : Str) : Str :=
  if 200 < chunk.length then chunk.take 200 ++ sc "..." else chunk

/-- The report returned by `process_paper_enhanced`. -/
structure Report where
  technical_terms : List Str
  explanations : List (Str × Str)
  repositories : Str
  comprehensive_explanation : Str
  chunk_processed : Str
deriving DecidableEq

/-- `process_paper_enhanced` on the extracted text.  The external calls are
passed in: `jl` for `json.loads`, `ir`/`er`/`rr`/`sr` for the remote-call
outcomes of the identify, per-term explain, repository and comprehensive
stages.  `chunks[0]` on an empty chunk list raises an `IndexError`. -/
def process_paper_enhanced (full_text : Str) (jl : Str → Option PyJson)
    (ir : Except Str RespOutput) (er : Str → Except Str RespOutput)
    (rr : Except Str RespOutput) (sr : Except Str RespOutput) :
    Except Str Report :=
  match (chunk_text full_text 3000).head? with
  | none => .error (sc "IndexError: list index out of range")
  | some chunk =>
    match callOpenai ir with
    | .error e => .error e
    | .ok identifyText =>
      match explainLoop er ((identifyFromResponseText jl identifyText).take 5) [] with
      | .error e => .error e
      | .ok explanations =>
        match callOpenai rr with
        | .error e => .error e
        | .ok repositories =>
          match callOpenai sr with
          | .error e => .error e
          | .ok comprehensive =>
            .ok { technical_terms := identifyFromResponseText jl identifyText
                  explanations := explanations
                  repositories := repositories
                  comprehensive_explanation := comprehensive
                  chunk_processed := chunkProcessed chunk }

/-- A well-shaped response carrying a single text output, used to
instantiate the external-call parameters on concrete runs. -/
def respWithText (t : Str) : RespOutput :=
  .items (some [{ content := some [{ text := some t }] }])

/-- A successful remote call returning the given text. -/
def okResp (s : String) : Except Str RespOutput := .ok (respWithText (sc s))

/-- A `json.loads` stand-in that always raises. -/
def noJson : Str → Option PyJson := fun _ => none

/-- The report of the concrete all-successful pipeline run used below. -/
def sampleReport : Report :=
  { technical_terms := [sc "alpha term"]
    explanations := [(sc "alpha term", sc "explained here")]
    repositories := sc "repo list"
    comprehensive_explanation := sc "overall summary"
    chunk_processed := sc "hello world" }

/-! ### Lemmas about `pySplit` -/

/-- Reading a whitespace-free block extends the word being accumulated. -/
theorem pySplitAux_word (w : Str) (hsp : ∀ c ∈ w, isSpace c = false) :
    ∀ (cur s : Str), pySplitAux cur (w ++ s) = pySplitAux (w.reverse ++ cur) s := by
  induction w with
  | nil => intro cur s; simp
  | cons a as ih =>
    intro cur s
    have ha : isSpace a = false := hsp a (by simp)
    have ih' := ih (fun c hc => hsp c (List.mem_cons_of_mem a hc)) (a :: cur) s
    simp only [List.cons_append, pySplitAux, ha, Bool.false_eq_true, if_false,
      List.append_eq]
    rw [ih']
    simp

/-- A whitespace character flushes the word being accumulated. -/
theorem pySplitAux_space (cur t : Str) (c : Char) (hc : isSpace c = true) :
    pySplitAux cur (c :: t) =
      if cur = [] then pySplitAux [] t else cur.reverse :: pySplitAux [] t := by
  simp [pySplitAux, hc]

/-- Every word `pySplitAux` emits is nonempty and whitespace-free, provided
the accumulated word is. -/
theorem pySplitAux_sound :
    ∀ (s cur : Str), (∀ c ∈ cur, isSpace c = false) →
      ∀ w ∈ pySplitAux cur s, w ≠ [] ∧ ∀ c ∈ w, isSpace c = false := by
  intro s
  induction s with
  | nil =>
    intro cur hcur w hw
    by_cases h : cur = []
    · simp [pySplitAux, h] at hw
    · simp only [pySplitAux, h, if_false, List.mem_singleton] at hw
      subst hw
      exact ⟨by simpa using h, fun c hc => hcur c (List.mem_reverse.mp hc)⟩
  | cons c rest ih =>
    intro cur hcur w hw
    by_cases hc : isSpace c = true
    · rw [pySplitAux_space cur rest c hc] at hw
      by_cases h : cur = []
      · rw [if_pos h] at hw
        exact ih [] (by simp) w hw
      · rw [if_neg h] at hw
        rcases List.mem_cons.mp hw with rfl | hw'
        · exact ⟨by simpa using h, fun d hd => hcur d (List.mem_reverse.mp hd)⟩
        · exact ih [] (by simp) w hw'
    · have hc' : isSpace c = false := by simpa using hc
      rw [show pySplitAux cur (c :: rest) = pySplitAux (c :: cur) rest from by
        simp [pySplitAux, hc']] at hw
      refine ih (c :: cur) ?_ w hw
      intro d hd
      rcases List.mem_cons.mp hd with rfl | hd'
      · exact hc'
      · exact hcur d hd'

/-- Every word of `pySplit s` is nonempty and whitespace-free. -/
theorem pySplit_sound (s : Str) :
    ∀ w ∈ pySplit s, w ≠ [] ∧ ∀ c ∈ w, isSpace c = false :=
  pySplitAux_sound s [] (by simp)

/-- Splitting a whitespace-only text yields no words. -/
theorem pySplit_all_space (s : Str) (h : ∀ c ∈ s, isSpace c = true) :
    pySplit s = [] := by
  unfold pySplit
  induction s with
  | nil => simp [pySplitAux]
  | cons c rest ih =>
    rw [pySplitAux_space [] rest c (h c (by simp)), if_pos rfl]
    exact ih fun d hd => h d (List.mem_cons_of_mem c hd)

/-- Splitting recovers a leading whitespace-free word. -/
theorem pySplit_word_append (w s : Str) (hw : w ≠ [])
    (hsp : ∀ c ∈ w, isSpace c = false)
    (hs : ∀ c, s.head? = some c → isSpace c = true) :
    pySplit (w ++ s) = w :: pySplit s := by
  unfold pySplit
  rw [pySplitAux_word w hsp [] s]
  rw [List.append_nil]
  cases s with
  | nil =>
    have : w.reverse ≠ [] := by simpa using hw
    simp [pySplitAux, this]
  | cons c t =>
    have hc := hs c rfl
    rw [pySplitAux_space w.reverse t c hc,
      if_neg (by simpa using hw),
      pySplitAux_space [] t c hc, if_pos rfl]
    simp

/-- The rendering of `joinSp` on a list of two or more words. -/
theorem joinSp_cons (w : Str) (t : List Str) (h : t ≠ []) :
    joinSp (w :: t) = w ++ ' ' :: joinSp t := by
  cases t with
  | nil => exact absurd rfl h
  | cons x xs => rfl

/-- Splitting a single-space-joined list of nonempty, whitespace-free words
recovers the list. -/
theorem pySplit_joinSp (g : List Str) (hg : g ≠ [])
    (h : ∀ w ∈ g, w ≠ [] ∧ ∀ c ∈ w, isSpace c = false) :
    pySplit (joinSp g) = g := by
  induction g with
  | nil => exact absurd rfl hg
  | cons w t ih =>
    rcases h w (by simp) with ⟨hw, hsp⟩
    cases t with
    | nil =>
      have hx := pySplit_word_append w [] hw hsp (by intro c hc; simp at hc)
      simpa [joinSp] using hx
    | cons x xs =>
      rw [joinSp_cons w (x :: xs) (by simp),
        pySplit_word_append w (' ' :: joinSp (x :: xs)) hw hsp ?_]
      · congr 1
        have hsp' : pySplit (' ' :: joinSp (x :: xs)) = pySplit (joinSp (x :: xs)) := by
          unfold pySplit
          rw [pySplitAux_space [] _ ' ' (by decide), if_pos rfl]
        rw [hsp', ih (by simp) (fun u hu => h u (List.mem_cons_of_mem w hu))]
      · intro c hc
        simp only [List.head?_cons, Option.some_inj] at hc
        subst hc
        decide

/-! ### Lemmas about `chunkGroups` -/

/-- The word groups of `chunk_text` partition the word list in order. -/
theorem chunkGroups_flatten (m : Nat) (ws : List Str) :
    ∀ chunk, (chunkGroups m chunk ws).flatten = chunk ++ ws := by
  induction ws with
  | nil =>
    intro chunk
    by_cases h : chunk = [] <;> simp [chunkGroups, h]
  | cons w ws ih =>
    intro chunk
    rw [chunkGroups]
    split
    · simp [ih []]
    · rw [ih (chunk ++ [w])]
      simp

/-- Every group `chunkGroups` emits is nonempty. -/
theorem chunkGroups_ne (m : Nat) (ws : List Str) :
    ∀ chunk, ∀ g ∈ chunkGroups m chunk ws, g ≠ [] := by
  induction ws with
  | nil =>
    intro chunk g hg
    by_cases h : chunk = []
    · simp [chunkGroups, h] at hg
    · simp only [chunkGroups, h, if_false, List.mem_singleton] at hg
      subst hg
      exact h
  | cons w ws ih =>
    intro chunk g hg
    rw [chunkGroups] at hg
    split at hg
    · rcases List.mem_cons.mp hg with rfl | hg'
      · simp
      · exact ih [] g hg'
    · exact ih (chunk ++ [w]) g hg

/-- Splitting a rendered group of `chunk_text` recovers the group. -/
theorem chunkGroups_recover (text : Str) (m : Nat) :
    ∀ g ∈ chunkGroups m [] (pySplit text), pySplit (joinSp g) = g := by
  intro g hg
  refine pySplit_joinSp g (chunkGroups_ne m (pySplit text) [] g hg) ?_
  intro w hw
  have hmem : w ∈ pySplit text := by
    have : w ∈ ([] : List Str) ++ pySplit text := by
      rw [← chunkGroups_flatten m (pySplit text) []]
      exact List.mem_flatten.mpr ⟨g, hg, hw⟩
    simpa using this
  exact pySplit_sound text w hmem

/-- C3.  For every input text, concatenating the words of all segments
produced by the Segmenter, in segment order, reproduces the original
whitespace-delimited word sequence of the input exactly. -/
theorem claim_C3_segmentation_round_trip (text : Str) (m : Nat) :
    ((chunk_text text m).map pySplit).flatten = pySplit text := by
  unfold chunk_text
  have hmap : List.map (pySplit ∘ joinSp) (chunkGroups m [] (pySplit text)) =
      List.map id (chunkGroups m [] (pySplit text)) :=
    List.map_congr_left fun g hg => by simpa using chunkGroups_recover text m g hg
  rw [List.map_map, hmap, List.map_id, chunkGroups_flatten]
  simp

/-- Dropping the last word can only shorten the rendering. -/
theorem joinSp_dropLast_le (g : List Str) :
    (joinSp g.dropLast).length ≤ (joinSp g).length := by
  induction g with
  | nil => simp
  | cons w t ih =>
    cases t with
    | nil => simp [joinSp]
    | cons x xs =>
      rw [joinSp_cons w (x :: xs) (by simp)]
      have hd : (w :: x :: xs).dropLast = w :: (x :: xs).dropLast := rfl
      by_cases hxs : (x :: xs).dropLast = []
      · rw [hd, hxs]
        simp [joinSp]
      · rw [hd, joinSp_cons w _ hxs]
        simp only [List.length_append, List.length_cons]
        omega

/-- Invariant of the accumulation loop: the pending group always renders
within the bound, hence any emitted group minus its last word does too. -/
theorem chunkGroups_bound (m : Nat) (ws : List Str) :
    ∀ chunk, (joinSp chunk).length ≤ m →
      ∀ g ∈ chunkGroups m chunk ws, (joinSp g.dropLast).length ≤ m := by
  induction ws with
  | nil =>
    intro chunk hc g hg
    by_cases h : chunk = []
    · simp [chunkGroups, h] at hg
    · simp only [chunkGroups, h, if_false, List.mem_singleton] at hg
      subst hg
      exact le_trans (joinSp_dropLast_le g) hc
  | cons w ws ih =>
    intro chunk hc g hg
    rw [chunkGroups] at hg
    split at hg
    · rcases List.mem_cons.mp hg with rfl | hg'
      · rw [List.dropLast_concat]
        exact hc
      · exact ih [] (by simp [joinSp]) g hg'
    · rename_i hlt
      exact ih (chunk ++ [w]) (Nat.le_of_not_lt hlt) g hg

/-- C2, counterexample.  With bound 3, the input `"ab cd ef"` produces the
two-word segment `"ab cd"` of rendered length 5 > 3, so a multi-word segment
exceeds the bound — the claim fails as stated. -/
theorem claim_C2_counterexample :
    sc "ab cd" ∈ chunk_text (sc "ab cd ef") 3 ∧
      3 < (sc "ab cd").length ∧ (pySplit (sc "ab cd")).length = 2 := by
  decide

/-- C2, amended.  The loop appends a word first and flushes only once the
rendering already exceeds the bound, so a segment can exceed the bound only
on account of its final word: every segment with its last word removed
renders within the bound. -/
theorem claim_C2_amended_segment_bound (text : Str) (m : Nat) (seg : Str)
    (hseg : seg ∈ chunk_text text m) :
    (joinSp ((pySplit seg).dropLast)).length ≤ m := by
  unfold chunk_text at hseg
  rcases List.mem_map.mp hseg with ⟨g, hg, rfl⟩
  rw [chunkGroups_recover text m g hg]
  exact chunkGroups_bound m (pySplit text) [] (by simp [joinSp]) g hg

/-- C2, witness for the amended theorem at the counterexample's input. -/
theorem claim_C2_amended_witness :
    (joinSp ((pySplit (sc "ab cd")).dropLast)).length ≤ 3 :=
  claim_C2_amended_segment_bound (sc "ab cd ef") 3 (sc "ab cd") (by decide)

/-! ### Lemmas about the Deduplicator -/

/-- The duplicate test is symmetric. -/
theorem related_comm (a b : Str) : related a b = related b a := by
  unfold related
  exact Bool.or_comm _ _

/-- The inner scan finds nothing exactly when no retained term is related. -/
theorem findRelated_eq_none (t : Str) :
    ∀ l, findRelated t l = none ↔ ∀ e ∈ l, related t e = false := by
  intro l
  induction l with
  | nil => simp [findRelated]
  | cons e rest ih =>
    by_cases h : related t e = true
    · simp [findRelated, h]
    · have h' : related t e = false := by simpa using h
      simp [findRelated, h', ih]

/-- `removeFirst` only deletes, in place. -/
theorem removeFirst_sublist (l : List Str) (e : Str) :
    List.Sublist (removeFirst l e) l := by
  induction l with
  | nil => simp [removeFirst]
  | cons x xs ih =>
    rw [removeFirst]
    split
    · exact List.sublist_cons_self x xs
    · exact List.Sublist.cons₂ x ih

/-- One deduplication step maps a subsequence of the processed input prefix
to a subsequence of the prefix extended by the new term. -/
theorem dedupInsert_sublist (retained pre : List Str) (t : Str)
    (h : List.Sublist retained pre) :
    List.Sublist (dedupInsert retained t) (pre ++ [t]) := by
  unfold dedupInsert
  cases hf : findRelated t retained with
  | none => exact List.Sublist.append h (List.Sublist.refl [t])
  | some e =>
    show List.Sublist
      (if e.length < t.length then removeFirst retained e ++ [t] else retained)
      (pre ++ [t])
    by_cases hl : e.length < t.length
    · rw [if_pos hl]
      exact List.Sublist.append
        (List.Sublist.trans (removeFirst_sublist retained e) h)
        (List.Sublist.refl [t])
    · rw [if_neg hl]
      exact List.Sublist.trans h (List.sublist_append_left pre [t])

/-- The deduplication loop keeps the retained list a subsequence of the
input seen so far. -/
theorem dedupLoop_sublist (ts : List Str) :
    ∀ retained pre, List.Sublist retained pre →
      List.Sublist (dedupLoop retained ts) (pre ++ ts) := by
  induction ts with
  | nil =>
    intro retained pre h
    simpa [dedupLoop] using h
  | cons t ts ih =>
    intro retained pre h
    rw [dedupLoop]
    have := ih (dedupInsert retained t) (pre ++ [t]) (dedupInsert_sublist retained pre t h)
    simpa using this

/-- C5, counterexample.  On input `["abc", "xyz", "abcd"]` the longer term
`"abcd"` replaces `"abc"`, whose first-seen position is 0, but the
replacement is appended at the end: the output is `["xyz", "abcd"]`, with
`"abcd"` not at position 0 — the claim fails as stated. -/
theorem claim_C5_counterexample :
    dedupTerms [sc "abc", sc "xyz", sc "abcd"] = [sc "xyz", sc "abcd"] ∧
      (dedupTerms [sc "abc", sc "xyz", sc "abcd"]).get? 0 ≠ some (sc "abcd") := by
  decide

/-- C5, amended.  The Deduplicator's output is an order-preserving
subsequence of its input (terms it retains keep their relative first-seen
order), but a longer term that replaces a shorter retained one is appended
at the end of the retained list, not put at the replaced term's position. -/
theorem claim_C5_amended_order (l : List Str) :
    List.Sublist (dedupTerms l) l := by
  unfold dedupTerms
  have h := dedupLoop_sublist l [] [] (List.Sublist.refl [])
  exact List.Sublist.trans (List.take_sublist 8 (dedupLoop [] l)) (by simpa using h)

/-- A term unrelated to every retained term is appended. -/
theorem dedupInsert_of_unrelated (retained : List Str) (t : Str)
    (h : ∀ e ∈ retained, related t e = false) :
    dedupInsert retained t = retained ++ [t] := by
  unfold dedupInsert
  rw [(findRelated_eq_none t retained).mpr h]

/-- On a pairwise-unrelated input the loop appends every term. -/
theorem dedupLoop_of_pairwise (ts : List Str) :
    ∀ retained, (retained ++ ts).Pairwise (fun a b => related a b = false) →
      dedupLoop retained ts = retained ++ ts := by
  induction ts with
  | nil => intro retained _; simp [dedupLoop]
  | cons t ts ih =>
    intro retained hp
    have hcross : ∀ e ∈ retained, related t e = false := by
      intro e he
      have := (List.pairwise_append.mp hp).2.2 e he t (by simp)
      rw [related_comm]
      exact this
    rw [dedupLoop, dedupInsert_of_unrelated retained t hcross]
    have hp' : ((retained ++ [t]) ++ ts).Pairwise (fun a b => related a b = false) := by
      simpa using hp
    rw [ih (retained ++ [t]) hp']
    simp

/-- C1, counterexample.  On input `["abc", "xyz", "abcxyz"]` the term
`"abcxyz"` replaces `"abc"` and is appended at the end without being
re-checked against `"xyz"`: the output `["xyz", "abcxyz"]` retains two terms
one of which is a case-insensitive substring of the other — the claim fails
as stated. -/
theorem claim_C1_counterexample :
    ¬ (dedupTerms [sc "abc", sc "xyz", sc "abcxyz"]).Pairwise
        (fun a b => related a b = false) := by
  decide

/-- C1, amended.  The no-containment invariant does hold for inputs of at
most two cleaned terms (a single comparison decides the pair); with three or
more terms a replacement can leave the replacing term substring-related to a
term retained after the replaced one, as the counterexample shows. -/
theorem claim_C1_amended_no_containment (a b : Str) :
    (dedupTerms [a, b]).Pairwise (fun u v => related u v = false) := by
  have h1 : dedupInsert [] a = [a] := dedupInsert_of_unrelated [] a (by simp)
  have h2 : dedupTerms [a, b] = (dedupInsert [a] b).take 8 := by
    unfold dedupTerms
    rw [show dedupLoop [] [a, b] = dedupInsert (dedupInsert [] a) b from rfl, h1]
  by_cases hr : related b a = true
  · have h3 : dedupInsert [a] b = if a.length < b.length then [b] else [a] := by
      unfold dedupInsert
      simp [findRelated, hr, removeFirst]
    rw [h2, h3]
    split <;> simp
  · have hr' : related b a = false := by simpa using hr
    have h3 : dedupInsert [a] b = [a, b] := by
      unfold dedupInsert
      simp [findRelated, hr']
    rw [h2, h3, show List.take 8 [a, b] = [a, b] from rfl]
    refine List.pairwise_cons.mpr ⟨?_, by simp⟩
    intro v hv
    rw [List.mem_singleton] at hv
    subst hv
    rw [related_comm]
    exact hr'

/-- C6, counterexample.  On input `["bcd", "abc", "abcd", "abcd"]` two
successive replacements leave the duplicated output `["abcd", "abcd"]`; a
second application collapses it to `["abcd"]`, so the Deduplicator is not
idempotent — the claim fails as stated. -/
theorem claim_C6_counterexample :
    dedupTerms (dedupTerms [sc "bcd", sc "abc", sc "abcd", sc "abcd"]) ≠
      dedupTerms [sc "bcd", sc "abc", sc "abcd", sc "abcd"] := by
  decide

/-- C6, amended.  On inputs with no case-insensitive substring relation
between any two terms the Deduplicator acts as a cap at 8 and is idempotent;
in general a replacement can leave related terms (even exact duplicates) in
the output, which a second application removes, so idempotence fails. -/
theorem claim_C6_amended_idempotence (l : List Str)
    (h : l.Pairwise (fun a b => related a b = false)) :
    dedupTerms l = l.take 8 ∧ dedupTerms (dedupTerms l) = dedupTerms l := by
  have h1 : dedupTerms l = l.take 8 := by
    unfold dedupTerms
    rw [dedupLoop_of_pairwise l [] (by simpa using h)]
    simp
  refine ⟨h1, ?_⟩
  have h2 : (l.take 8).Pairwise (fun a b => related a b = false) :=
    h.sublist (List.take_sublist 8 l)
  rw [h1]
  unfold dedupTerms
  rw [dedupLoop_of_pairwise (l.take 8) [] (by simpa using h2)]
  simp [List.take_take]

/-- C6, witness for the amended theorem on a concrete unrelated pair. -/
theorem claim_C6_amended_witness :
    dedupTerms [sc "abc", sc "wxyz"] = [sc "abc", sc "wxyz"] ∧
      dedupTerms (dedupTerms [sc "abc", sc "wxyz"]) =
        dedupTerms [sc "abc", sc "wxyz"] := by
  have h := claim_C6_amended_idempotence [sc "abc", sc "wxyz"] (by decide)
  exact ⟨by rw [h.1]; rfl, h.2⟩

/-! ### Lemmas about the orchestration -/

/-- Both parsing paths of `identify_technical_terms` cap the list at 8. -/
theorem identify_len (jl : Str → Option PyJson) (t : Str) :
    (identifyFromResponseText jl t).length ≤ 8 := by
  simp only [identifyFromResponseText]
  split
  · unfold dedupTerms
    exact List.length_take_le 8 _
  · unfold fallbackTerms
    exact List.length_take_le 8 _

/-- Keys of a Python-dict assignment: unchanged when the key is present,
appended otherwise. -/
theorem dictInsert_keys (k v : Str) :
    ∀ acc, (dictInsert acc k v).map Prod.fst =
      if k ∈ acc.map Prod.fst then acc.map Prod.fst
      else acc.map Prod.fst ++ [k] := by
  intro acc
  induction acc with
  | nil => simp [dictInsert]
  | cons p rest ih =>
    obtain ⟨k', v'⟩ := p
    by_cases h : k' = k
    · subst h
      simp [dictInsert]
    · have h2 : ¬ k = k' := fun hkk => h hkk.symm
      by_cases hk : k ∈ rest.map Prod.fst <;>
        simp [dictInsert, h, ih, hk, h2]

/-- The explanation loop's resulting dict keys are exactly the initial keys
together with the explained terms, and stay duplicate-free. -/
theorem explainLoop_keys (er : Str → Except Str RespOutput) :
    ∀ (ts : List Str) (acc m : List (Str × Str)),
      explainLoop er ts acc = .ok m →
      (∀ x, x ∈ m.map Prod.fst ↔ x ∈ acc.map Prod.fst ∨ x ∈ ts) ∧
      ((acc.map Prod.fst).Nodup → (m.map Prod.fst).Nodup) := by
  intro ts
  induction ts with
  | nil =>
    intro acc m h
    rw [explainLoop] at h
    simp only [Except.ok.injEq] at h
    subst h
    simp
  | cons t ts ih =>
    intro acc m h
    rw [explainLoop] at h
    cases hcall : callOpenai (er t) with
    | error e =>
      rw [hcall] at h
      simp at h
    | ok expl =>
      rw [hcall] at h
      have h' : explainLoop er ts (dictInsert acc t expl) = .ok m := h
      rcases ih (dictInsert acc t expl) m h' with ⟨hmem, hnd⟩
      constructor
      · intro x
        rw [hmem x, dictInsert_keys t expl acc]
        by_cases hk : t ∈ acc.map Prod.fst
        · rw [if_pos hk]
          constructor
          · rintro (h1 | h1)
            · exact Or.inl h1
            · exact Or.inr (List.mem_cons_of_mem t h1)
          · rintro (h1 | h1)
            · exact Or.inl h1
            · rcases List.mem_cons.mp h1 with rfl | h2
              · exact Or.inl hk
              · exact Or.inr h2
        · rw [if_neg hk]
          simp only [List.mem_append, List.mem_singleton, List.mem_cons]
          tauto
      · intro hnda
        apply hnd
        rw [dictInsert_keys t expl acc]
        by_cases hk : t ∈ acc.map Prod.fst
        · rw [if_pos hk]
          exact hnda
        · rw [if_neg hk]
          rw [List.nodup_append]
          refine ⟨hnda, List.nodup_singleton t, ?_⟩
          intro a ha hat
          rw [List.mem_singleton] at hat
          subst hat
          exact hk ha

/-- Inversion of a successful `process_paper_enhanced` run. -/
theorem process_ok_inv (ft : Str) (jl : Str → Option PyJson)
    (ir : Except Str RespOutput) (er : Str → Except Str RespOutput)
    (rr sr : Except Str RespOutput) (r : Report)
    (h : process_paper_enhanced ft jl ir er rr sr = .ok r) :
    ∃ chunk, (chunk_text ft 3000).head? = some chunk ∧
      ∃ itext, callOpenai ir = .ok itext ∧
        r.technical_terms = identifyFromResponseText jl itext ∧
        explainLoop er (r.technical_terms.take 5) [] = .ok r.explanations ∧
        r.chunk_processed = chunkProcessed chunk := by
  unfold process_paper_enhanced at h
  split at h
  · simp at h
  · rename_i chunk hc
    split at h
    · simp at h
    · rename_i itext hi
      split at h
      · simp at h
      · rename_i m he
        split at h
        · simp at h
        · rename_i repo hr
          split at h
          · simp at h
          · rename_i comp hs
            simp only [Except.ok.injEq] at h
            subst h
            exact ⟨chunk, hc, itext, hi, rfl, he, rfl⟩

/-- C4, counterexample.  `client.responses.create` sits outside the
`try`/`except`, so when the remote inference call itself raises, the
exception propagates and the run aborts with an error instead of producing a
Report containing a `"Response error: ..."` string — the claim fails as
stated.  Here the per-term explanation call fails with `"network down"`. -/
theorem claim_C4_counterexample :
    process_paper_enhanced (sc "hello world") noJson (okResp "alpha term")
        (fun _ => .error (sc "network down")) (okResp "repo list")
        (okResp "overall summary") =
      .error (sc "network down") := rfl

/-- C4, amended.  Only an error raised while scanning the response object
for its text is absorbed: it becomes the string `"Response error: <detail>"`
and flows into the Report with all other fields populated.  A failure of the
remote call itself propagates and aborts the run (see the counterexample). -/
theorem claim_C4_amended_error_absorption (e : Str) :
    callOpenai (.ok (.raising e)) = .ok (sc "Response error: " ++ e) ∧
      process_paper_enhanced (sc "hello world") noJson (okResp "alpha term")
          (fun _ => .ok (.raising e)) (okResp "repo list")
          (okResp "overall summary") =
        .ok { technical_terms := [sc "alpha term"]
              explanations := [(sc "alpha term", sc "Response error: " ++ e)]
              repositories := sc "repo list"
              comprehensive_explanation := sc "overall summary"
              chunk_processed := sc "hello world" } :=
  ⟨rfl, rfl⟩

/-- C7.  Whenever strict structured parsing is unavailable or fails — the
stripped response is not bracket-delimited, `json.loads` raises, or it
yields a non-list — `identify_technical_terms` returns the line-based
fallback (never raising); in particular on
`"- term one\n- term two\n"` the fallback yields
`["term one", "term two"]`. -/
theorem claim_C7_fallback_parsing (jl : Str → Option PyJson) (response : Str) :
    ((bracketDelim (pyStrip response) = false ∨ jl (pyStrip response) = none ∨
        jl (pyStrip response) = some PyJson.jother) →
      identifyFromResponseText jl response = fallbackTerms response) ∧
      fallbackTerms (sc "- term one\n- term two\n") =
        [sc "term one", sc "term two"] ∧
      identifyFromResponseText jl (sc "- term one\n- term two\n") =
        [sc "term one", sc "term two"] := by
  refine ⟨?_, by decide, ?_⟩
  · intro h
    simp only [identifyFromResponseText]
    rcases h with h | h | h
    · simp [h]
    · by_cases hb : bracketDelim (pyStrip response) = true <;> simp [h, hb]
    · by_cases hb : bracketDelim (pyStrip response) = true <;> simp [h, hb]
  · have h1 : identifyFromResponseText jl (sc "- term one\n- term two\n") =
        fallbackTerms (sc "- term one\n- term two\n") := by
      have hb : bracketDelim (pyStrip (sc "- term one\n- term two\n")) = false := by
        decide
      simp only [identifyFromResponseText]
      simp [hb]
    rw [h1]
    decide

/-- C8.  The `chunk_processed` field of the Report is the representative
segment verbatim when its length is at most 200 characters, and its first
200 characters followed by `"..."` when longer. -/
theorem claim_C8_truncation (chunk : Str) :
    (chunk.length ≤ 200 → chunkProcessed chunk = chunk) ∧
      (200 < chunk.length →
        chunkProcessed chunk = chunk.take 200 ++ sc "...") ∧
      (∀ (ft : Str) (jl : Str → Option PyJson) (ir : Except Str RespOutput)
          (er : Str → Except Str RespOutput) (rr sr : Except Str RespOutput)
          (r : Report),
        process_paper_enhanced ft jl ir er rr sr = .ok r →
          ∃ seg, (chunk_text ft 3000).head? = some seg ∧
            r.chunk_processed = chunkProcessed seg) := by
  refine ⟨?_, ?_, ?_⟩
  · intro h
    unfold chunkProcessed
    rw [if_neg (by omega)]
  · intro h
    unfold chunkProcessed
    rw [if_pos h]
  · intro ft jl ir er rr sr r h
    rcases process_ok_inv ft jl ir er rr sr r h with ⟨seg, hc, _, _, _, _, hcp⟩
    exact ⟨seg, hc, hcp⟩

/-- C8, witness: a 201-character segment is truncated to its first 200
characters plus the marker, a 200-character segment is kept verbatim. -/
theorem claim_C8_truncation_witness :
    chunkProcessed (List.replicate 201 'a') =
        (List.replicate 201 'a').take 200 ++ sc "..." ∧
      chunkProcessed (List.replicate 200 'a') = List.replicate 200 'a' :=
  ⟨(claim_C8_truncation (List.replicate 201 'a')).2.1
      (by rw [List.length_replicate]; omega),
   (claim_C8_truncation (List.replicate 200 'a')).1
      (by rw [List.length_replicate])⟩

/-- C9.  On every successful run the canonical term list has at most 8 terms
(both parsing paths cap at 8), and the Report's explanations mapping has as
keys exactly the first `min(5, n)` canonical terms — every key list is
duplicate-free, a term is a key exactly when it is among the first 5
canonical terms, and hence every key occurs in `technical_terms`. -/
theorem claim_C9_explained_subset (ft : Str) (jl : Str → Option PyJson)
    (ir : Except Str RespOutput) (er : Str → Except Str RespOutput)
    (rr sr : Except Str RespOutput) (r : Report)
    (h : process_paper_enhanced ft jl ir er rr sr = .ok r) :
    r.technical_terms.length ≤ 8 ∧
      (r.explanations.map Prod.fst).Nodup ∧
      (∀ k, k ∈ r.explanations.map Prod.fst ↔ k ∈ r.technical_terms.take 5) ∧
      (∀ k ∈ r.explanations.map Prod.fst, k ∈ r.technical_terms) := by
  rcases process_ok_inv ft jl ir er rr sr r h with
    ⟨chunk, hc, itext, hi, htt, he, hcp⟩
  rcases explainLoop_keys er (r.technical_terms.take 5) [] r.explanations he with
    ⟨hmem, hnd⟩
  have hkeys : ∀ k, k ∈ r.explanations.map Prod.fst ↔
      k ∈ r.technical_terms.take 5 := by
    intro k
    rw [hmem k]
    simp
  refine ⟨?_, hnd (by simp), hkeys, ?_⟩
  · rw [htt]
    exact identify_len jl itext
  · intro k hk
    exact List.mem_of_mem_take ((hkeys k).mp hk)

/-- C9, witness: a concrete all-successful run with one canonical term. -/
theorem claim_C9_explained_subset_witness :
    sampleReport.technical_terms.length ≤ 8 ∧
      (sampleReport.explanations.map Prod.fst).Nodup ∧
      (∀ k, k ∈ sampleReport.explanations.map Prod.fst ↔
        k ∈ sampleReport.technical_terms.take 5) ∧
      (∀ k ∈ sampleReport.explanations.map Prod.fst,
        k ∈ sampleReport.technical_terms) :=
  claim_C9_explained_subset (sc "hello world") noJson (okResp "alpha term")
    (fun _ => okResp "explained here") (okResp "repo list")
    (okResp "overall summary") sampleReport rfl

/-- C10.  For a document whose extracted text has no words, `chunk_text`
returns the empty list (zero segments, not one empty segment), and
`chunks[0]` in `process_paper_enhanced` then raises an out-of-bounds
`IndexError` that terminates the run. -/
theorem claim_C10_empty_input (text : Str) (h : ∀ c ∈ text, isSpace c = true)
    (jl : Str → Option PyJson) (ir : Except Str RespOutput)
    (er : Str → Except Str RespOutput) (rr sr : Except Str RespOutput) :
    chunk_text text 3000 = [] ∧
      process_paper_enhanced text jl ir er rr sr =
        .error (sc "IndexError: list index out of range") := by
  have hchunks : chunk_text text 3000 = [] := by
    unfold chunk_text
    rw [pySplit_all_space text h]
    rfl
  refine ⟨hchunks, ?_⟩
  unfold process_paper_enhanced
  rw [hchunks]
  rfl

/-- C10, witness at a whitespace-only document text. -/
theorem claim_C10_empty_input_witness :
    chunk_text (sc "  ") 3000 = [] ∧
      process_paper_enhanced (sc "  ") noJson (okResp "a")
          (fun _ => okResp "a") (okResp "a") (okResp "a") =
        .error (sc "IndexError: list index out of range") :=
  claim_C10_empty_input (sc "  ") (by decide) noJson (okResp "a")
    (fun _ => okResp "a") (okResp "a") (okResp "a")

end PaperDecoder
